import Mathlib

/-!
Verification of the `squid` SQL templating library (`src/sql/index.ts`).

The library builds parameterized SQL query objects `{ text, values }` from
template literals.  Interpolated expressions are serialized by a value
serializer (`buildSql`) dispatching over SQL builders, lists and scalars.
The spread helpers `spreadAnd`, `spreadInsert` and `spreadUpdate` expand
records into WHERE/INSERT/UPDATE fragments.

The builder module (`rawSqlBuilder`, `paramSqlBuilder`, `mkSqlBuilder`,
`buildSql`) and the utilities (`escapeIdentifier`, `extractKeys`,
`filterUndefined`, `mergeLists`) are not part of the provided sources and
are modelled from the specification; `sql`, `spreadAnd`, `spreadInsert`
and `spreadUpdate` are translated directly from `src/sql/index.ts`.
-/

namespace Squid

/-- Errors raised synchronously at query-building time.  The only intrinsic
error is the `TypeError` thrown by `spreadInsert` when a record misses a
value for a column of the column union (the `MissingColumnValue` of the spec). -/
inductive QueryError where
  | missingColumnValue (column : String) : QueryError
deriving DecidableEq, Repr

mutual
/-- A JavaScript runtime value as the library observes it: `null`, numbers,
strings, booleans, arrays, or an `SqlBuilder` object.  (`undefined` is not a
`Value`; record fields use `Option Value` with `none` for `undefined`.) -/
inductive Value where
  | vNull : Value
  | vInt : Int → Value
  | vStr : String → Value
  | vBool : Bool → Value
  | vList : List Value → Value
  | vBuilder : SqlBuilder → Value

/-- Modelled from the spec: the `SqlBuilder` variants of the missing
`builder` module — a raw fragment (verbatim text, zero values), a
parameter-bound value (single placeholder), and a deferred composite
wrapping a `startIndex → (text, values)` serialization function that may
fail (this is the function argument of `mkSqlBuilder`). -/
inductive SqlBuilder where
  | raw : String → SqlBuilder
  | param : Value → SqlBuilder
  | composite : (Nat → Except QueryError (String × List Value)) → SqlBuilder
end

/-- The query object `{ text, values }` returned by the `sql` template tag. -/
structure QueryConfig where
  text : String
  values : List Value

/-- Decimal digits of a natural number, most significant first; the fuel
argument (any bound on the number) makes the recursion structural. -/
def natDigitsAux : Nat → Nat → List Char
  | 0, n => [Char.ofNat (48 + n)]
  | fuel + 1, n =>
    if n < 10 then [Char.ofNat (48 + n)]
    else natDigitsAux fuel (n / 10) ++ [Char.ofNat (48 + n % 10)]

/-- Decimal digits of a natural number, most significant first. -/
def natDigits (n : Nat) : List Char := natDigitsAux n n

/-- Modelled from the spec: the positional placeholder token `$i` (1-based)
of the target SQL dialect — a dollar sign followed by the decimal numeral. -/
def placeholder (i : Nat) : String := String.mk ('$' :: natDigits i)

/-- Numeric value of a digit string, used to read a placeholder token back. -/
def digitsVal (ds : List Char) : Nat :=
  ds.foldl (fun n c => n * 10 + (c.toNat - 48)) 0

/-- State of the placeholder scanner: outside any token, right after a
dollar sign, or inside the digits of a token with the value read so far. -/
inductive ScanState where
  | out : ScanState
  | afterDollar : ScanState
  | inNum : Nat → ScanState

/-- Scans a character list and collects the numbers of all placeholder
tokens (a dollar sign followed by at least one decimal digit, digits taken
maximally), left to right. -/
def phScanAux : ScanState → List Char → List Nat
  | st, [] =>
    match st with
    | .inNum acc => [acc]
    | _ => []
  | st, c :: rest =>
    match st with
    | .out =>
      if c = '$' then phScanAux .afterDollar rest else phScanAux .out rest
    | .afterDollar =>
      if c.isDigit then phScanAux (.inNum (c.toNat - 48)) rest
      else if c = '$' then phScanAux .afterDollar rest
      else phScanAux .out rest
    | .inNum acc =>
      if c.isDigit then phScanAux (.inNum (acc * 10 + (c.toNat - 48))) rest
      else
        acc :: (if c = '$' then phScanAux .afterDollar rest else phScanAux .out rest)

/-- The numbers of the placeholder tokens occurring in a string, in order of
occurrence. -/
def phList (s : String) : List Nat := phScanAux .out s.data

/-- Holds when the character list does not start with a decimal digit, so
that appending it to a placeholder token cannot extend the token. -/
def noLeadingDigit : List Char → Bool
  | [] => true
  | c :: _ => !c.isDigit

/-- Holds when the character list contains no dollar sign, so it can neither
contain nor start a placeholder token. -/
def dollarFree (cs : List Char) : Bool := cs.all fun c => c != '$'

/-- Scalars are the values that are neither lists nor builders; the value
serializer binds them as a single parameter. -/
def isScalar : Value → Bool
  | .vList _ => false
  | .vBuilder _ => false
  | _ => true

mutual
/-- Values whose serialization only ever emits placeholder tokens it binds:
scalars, lists of such values, and well-behaved builders. -/
inductive GoodV : Value → Prop where
  | vNull : GoodV .vNull
  | vInt (n : Int) : GoodV (.vInt n)
  | vStr (s : String) : GoodV (.vStr s)
  | vBool (b : Bool) : GoodV (.vBool b)
  | vList (xs : List Value) : (∀ v ∈ xs, GoodV v) → GoodV (.vList xs)
  | vBuilder (b : SqlBuilder) : GoodB b → GoodV (.vBuilder b)

/-- Builders whose serialized text contains exactly the placeholder tokens
of the parameters they bind, consecutively from the start index, and does
not begin with a digit: raw fragments without placeholder-shaped text,
parameter builders, and composites keeping the correspondence invariant. -/
inductive GoodB : SqlBuilder → Prop where
  | raw (s : String) : phList s = [] → noLeadingDigit s.data = true → GoodB (.raw s)
  | param (v : Value) : GoodB (.param v)
  | composite (f : Nat → Except QueryError (String × List Value)) :
      (∀ i t vals, f i = .ok (t, vals) →
        phList t = List.range' i vals.length ∧ noLeadingDigit t.data = true) →
      GoodB (.composite f)
end

/-- Relates a start index, a list of fragment texts and the concatenation of
their value lists: each text contains exactly the consecutive placeholder
tokens of its own values, continuing where the previous fragment stopped,
and no text begins with a digit. -/
inductive PhRuns : Nat → List String → List Value → Prop where
  | nil (i : Nat) : PhRuns i [] []
  | cons (i : Nat) (t : String) (vs : List Value) (ts : List String) (rest : List Value) :
      phList t = List.range' i vs.length →
      noLeadingDigit t.data = true →
      PhRuns (i + vs.length) ts rest →
      PhRuns i (t :: ts) (vs ++ rest)

mutual
/-- Two values differing at most in interpolated scalar content: both are
scalars, or lists of pairwise same-shaped values, or one and the same
builder. -/
inductive SameShape : Value → Value → Prop where
  | scalar (v w : Value) : isScalar v = true → isScalar w = true → SameShape v w
  | list (xs ys : List Value) : SameShapeList xs ys → SameShape (.vList xs) (.vList ys)
  | builder (b : SqlBuilder) : SameShape (.vBuilder b) (.vBuilder b)

/-- Pointwise `SameShape` on lists of equal length. -/
inductive SameShapeList : List Value → List Value → Prop where
  | nil : SameShapeList [] []
  | cons (v w : Value) (xs ys : List Value) :
      SameShape v w → SameShapeList xs ys → SameShapeList (v :: xs) (w :: ys)
end

/-- Congruence of serializer results: both fail with the same error, or both
succeed with the same text and the same number of bound parameters. -/
def serializeCongr : Except QueryError (String × List Value) → Except QueryError (String × List Value) → Prop
  | .error e1, .error e2 => e1 = e2
  | .ok r1, .ok r2 => r1.1 = r2.1 ∧ r1.2.length = r2.2.length
  | _, _ => False

/-- Congruence of element-wise serializer results: both fail with the same
error, or both succeed with the same texts and the same number of bound
parameters. -/
def serializeListCongr : Except QueryError (List String × List Value) → Except QueryError (List String × List Value) → Prop
  | .error e1, .error e2 => e1 = e2
  | .ok r1, .ok r2 => r1.1 = r2.1 ∧ r1.2.length = r2.2.length
  | _, _ => False

/-- Congruence of query results: both fail with the same error, or both
succeed with the same text and the same number of bound parameters. -/
def queryCongr : Except QueryError QueryConfig → Except QueryError QueryConfig → Prop
  | .error e1, .error e2 => e1 = e2
  | .ok q1, .ok q2 => q1.text = q2.text ∧ q1.values.length = q2.values.length
  | _, _ => False

/-- The placeholder tokens `$i, $(i+1), …` for `n` consecutive parameters. -/
def placeholderList (i n : Nat) : List String := (List.range' i n).map placeholder

/-- JavaScript `Array.prototype.join(sep)`. -/
def joinWith (sep : String) : List String → String
  | [] => ""
  | [x] => x
  | x :: y :: rest => x ++ sep ++ joinWith sep (y :: rest)

/-- Modelled from the spec: serialization of an `SqlBuilder` variant with a
given start index — a raw fragment yields its text verbatim with no values,
a parameter-bound value yields a single placeholder, and a deferred
composite invokes its wrapped function. -/
def serializeBuilder : SqlBuilder → Nat → Except QueryError (String × List Value)
  | .raw s, _ => .ok (s, [])
  | .param v, i => .ok (placeholder i, [v])
  | .composite f, i => f i

mutual
/-- Modelled from the spec: the value serializer (`buildSql` of the missing
`builder` module).  Dispatch in priority order: builders delegate to their
own serialization; lists serialize elements with running index continuation,
join with `", "` and wrap in parentheses; any other value becomes a single
placeholder bound to one parameter. -/
def buildSql : Value → Nat → Except QueryError (String × List Value)
  | .vBuilder b, i => serializeBuilder b i
  | .vList xs, i =>
    match buildSqlList xs i with
    | .error e => .error e
    | .ok r => .ok ("(" ++ joinWith ", " r.1 ++ ")", r.2)
  | .vNull, i => .ok (placeholder i, [.vNull])
  | .vInt n, i => .ok (placeholder i, [.vInt n])
  | .vStr s, i => .ok (placeholder i, [.vStr s])
  | .vBool b, i => .ok (placeholder i, [.vBool b])

/-- Serializes the elements of a list value left to right; element `i`
starts at the running index advanced by the number of values consumed by
the elements before it.  Returns the element texts and the concatenated
values. -/
def buildSqlList : List Value → Nat → Except QueryError (List String × List Value)
  | [], _ => .ok ([], [])
  | v :: vs, i =>
    match buildSql v i with
    | .error e => .error e
    | .ok s =>
      match buildSqlList vs (i + s.2.length) with
      | .error e => .error e
      | .ok r => .ok (s.1 :: r.1, s.2 ++ r.2)
end

/-- Modelled from the spec: `mergeLists` of the missing utils module —
interleaves the literal segments of the template with the serialized expression
texts in original template order (`L0, t1, L1, …, tn, Ln`). -/
def mergeLists : List String → List String → List String
  | [], _ => []
  | t :: ts, [] => t :: ts
  | t :: ts, s :: ss => t :: s :: mergeLists ts ss

/-- The per-expression loop of the `sql` template tag (`values.map(...)` in
the source): serializes each expression with `nextParamID =
parameterValues.length + 1`, pushing the serialized values onto the
accumulator.  Returns the serialized texts and the final accumulator. -/
def serializeExpressions : List Value → List Value → Except QueryError (List String × List Value)
  | [], parameterValues => .ok ([], parameterValues)
  | expression :: rest, parameterValues =>
    let nextParamID := parameterValues.length + 1
    match buildSql expression nextParamID with
    | .error e => .error e
    | .ok serialized =>
      match serializeExpressions rest (parameterValues ++ serialized.2) with
      | .error e => .error e
      | .ok r => .ok (serialized.1 :: r.1, r.2)

/-- The SQL template string tag (`sql` in `src/sql/index.ts`): serializes
the interpolated expressions left to right, accumulates their parameter
values, and stitches the literal segments and serialized texts together. -/
def sql (texts : List String) (values : List Value) : Except QueryError QueryConfig :=
  match serializeExpressions values [] with
  | .error e => .error e
  | .ok (serializedValues, parameterValues) =>
    .ok { text := joinWith "" (mergeLists texts serializedValues)
          values := parameterValues }

/-- Function `sql.raw` (`rawExpression` in the source): wraps a string as a raw
fragment injected verbatim. -/
def rawExpression (rawValue : String) : SqlBuilder := .raw rawValue

/-- Function `sql.safe` (`safeExpression` in the source): forces single-parameter
binding of a value regardless of its shape. -/
def safeExpression (value : Value) : SqlBuilder := .param value

/-- A record mapping column names to values, in insertion order; a `none`
value models a JavaScript `undefined` property. -/
abbrev Record := List (String × Option Value)

/-- Modelled from the spec: `filterUndefined` of the missing utils module —
drops record entries whose value is `undefined`. -/
def filterUndefined (record : Record) : List (String × Value) :=
  record.filterMap fun kv => kv.2.map fun v => (kv.1, v)

/-- Doubles every double-quote character of an identifier. -/
def escapeQuotes : List Char → List Char
  | [] => []
  | c :: rest =>
    if c = Char.ofNat 34 then Char.ofNat 34 :: Char.ofNat 34 :: escapeQuotes rest
    else c :: escapeQuotes rest

/-- Modelled from the spec: `escapeIdentifier` of the missing utils module —
double-quote wrapping with internal quote doubling. -/
def escapeIdentifier (identifier : String) : String :=
  String.mk (Char.ofNat 34 :: escapeQuotes identifier.data ++ [Char.ofNat 34])

/-- Modelled from the spec: `extractKeys` of the missing utils module — the
union of the keys of the records, ordered by first appearance. -/
def extractKeys (records : List (List (String × Value))) : List String :=
  records.foldl
    (fun keys record =>
      record.foldl (fun ks kv => if kv.1 ∈ ks then ks else ks ++ [kv.1]) keys)
    []

/-- JavaScript property access `record[columnName]`: the value of the first
entry with that key (`none` both for an absent key and for an explicit
`undefined` value). -/
def lookupRecord (record : Record) (columnName : String) : Option Value :=
  match record.find? (fun kv => kv.1 == columnName) with
  | some kv => kv.2
  | none => none

/-- The shared serialization loop of `spreadAnd` and `spreadUpdate`: maps
each (column, value) pair to `escapeIdentifier(column) = <serialized
value>`, threading the running parameter index and accumulating values. -/
def serializeSetters : List (String × Value) → Nat → Except QueryError (List String × List Value)
  | [], _ => .ok ([], [])
  | (columnName, columnValue) :: rest, nextParamID =>
    match buildSql columnValue nextParamID with
    | .error e => .error e
    | .ok serialized =>
      match serializeSetters rest (nextParamID + serialized.2.length) with
      | .error e => .error e
      | .ok r =>
        .ok ((escapeIdentifier columnName ++ " = " ++ serialized.1) :: r.1,
             serialized.2 ++ r.2)

/-- Function `spreadAnd` from `src/sql/index.ts`: filters out undefined entries and
returns a deferred builder producing the `" AND "`-joined chain of
`column = value` comparisons wrapped in parentheses. -/
def spreadAnd (record : Record) : SqlBuilder :=
  let columnValues := filterUndefined record
  .composite fun nextParamID =>
    match serializeSetters columnValues nextParamID with
    | .error e => .error e
    | .ok r => .ok ("(" ++ joinWith " AND " r.1 ++ ")", r.2)

/-- Function `spreadUpdate` from `src/sql/index.ts`: filters out undefined entries
and returns a deferred builder producing the `", "`-joined setter chain
with no wrapping parentheses. -/
def spreadUpdate (record : Record) : SqlBuilder :=
  let updateValues := filterUndefined record
  .composite fun nextParamID =>
    match serializeSetters updateValues nextParamID with
    | .error e => .error e
    | .ok r => .ok (joinWith ", " r.1, r.2)

/-- Serializes one row of the VALUES list of `spreadInsert`: looks each union column up in
the original record and fails with `missingColumnValue` when the value is
`undefined` (absent key or explicit `undefined`), otherwise serializes it
with the running parameter index. -/
def serializeInsertRow (record : Record) : List String → Nat → Except QueryError (List String × List Value)
  | [], _ => .ok ([], [])
  | columnName :: cols, nextParamID =>
    match lookupRecord record columnName with
    | none => .error (.missingColumnValue columnName)
    | some columnValue =>
      match buildSql columnValue nextParamID with
      | .error e => .error e
      | .ok serialized =>
        match serializeInsertRow record cols (nextParamID + serialized.2.length) with
        | .error e => .error e
        | .ok r => .ok (serialized.1 :: r.1, serialized.2 ++ r.2)

/-- Serializes all rows of the VALUES list of `spreadInsert`, records in order, threading
the running parameter index; the column texts of each row are `", "`-joined. -/
def serializeInsertRows (columns : List String) : List Record → Nat → Except QueryError (List String × List Value)
  | [], _ => .ok ([], [])
  | record :: rs, nextParamID =>
    match serializeInsertRow record columns nextParamID with
    | .error e => .error e
    | .ok row =>
      match serializeInsertRows columns rs (nextParamID + row.2.length) with
      | .error e => .error e
      | .ok r => .ok (joinWith ", " row.1 :: r.1, row.2 ++ r.2)

/-- Function `spreadInsert` from `src/sql/index.ts`: the column set is the
first-seen union of keys across the undefined-filtered records; serializes
to `(col1, col2, …) VALUES (r1v1, …), (r2v1, …), …`, failing when a record
misses a value for a union column. -/
def spreadInsert (records : List Record) : SqlBuilder :=
  let columns := extractKeys (records.map filterUndefined)
  .composite fun nextParamID =>
    match serializeInsertRows columns records nextParamID with
    | .error e => .error e
    | .ok r =>
      .ok ("(" ++ joinWith ", " (columns.map escapeIdentifier) ++ ")" ++
             " VALUES " ++ "(" ++ joinWith "), (" r.1 ++ ")",
           r.2)

/-- Modelled from the spec, for the refinement claim about the template tag
algorithm: serializes the expressions left to right, each with an explicit
running next-placeholder-index advanced by the count of values the previous
expressions consumed, returning the serialized texts and the concatenation
of all values in consumption order. -/
def specSerialize : List Value → Nat → Except QueryError (List String × List Value)
  | [], _ => .ok ([], [])
  | e :: es, nextIndex =>
    match buildSql e nextIndex with
    | .error err => .error err
    | .ok s =>
      match specSerialize es (nextIndex + s.2.length) with
      | .error err => .error err
      | .ok r => .ok (s.1 :: r.1, s.2 ++ r.2)

/-- Modelled from the spec, for the refinement claim about the template tag
algorithm: the final text interleaves literal segments and serialized
expression texts in original template order, and the final values are the
accumulator in the exact order parameters were consumed, numbering from 1. -/
def specSql (texts : List String) (exprs : List Value) : Except QueryError QueryConfig :=
  match specSerialize exprs 1 with
  | .error e => .error e
  | .ok (ts, vals) =>
    .ok { text := joinWith "" (mergeLists texts ts)
          values := vals }

/-- The setter texts `"col" = $i, …` produced for scalar-valued record
entries, one placeholder per entry with consecutive indices. -/
def scalarSetters : List (String × Value) → Nat → List String
  | [], _ => []
  | (columnName, _) :: rest, i =>
    (escapeIdentifier columnName ++ " = " ++ placeholder i) :: scalarSetters rest (i + 1)

/-! ### Scanner lemmas -/

theorem phScanAux_out_dollarFree (b : List Char) :
    ∀ a : List Char, dollarFree a = true → phScanAux .out (a ++ b) = phScanAux .out b := by
  intro a
  induction a with
  | nil => intro h; rfl
  | cons c a' ih =>
    intro h
    simp only [dollarFree, List.all_cons, Bool.and_eq_true, bne_iff_ne, ne_eq] at h
    simp only [List.cons_append, phScanAux, if_neg h.1]
    exact ih h.2

theorem phScanAux_afterDollar_of_noLeadingDigit (b : List Char)
    (hb : noLeadingDigit b = true) :
    phScanAux .afterDollar b = phScanAux .out b := by
  cases b with
  | nil => rfl
  | cons c rest =>
    simp only [noLeadingDigit, Bool.not_eq_true'] at hb
    simp only [phScanAux, hb, if_false, Bool.false_eq_true]

theorem phScanAux_inNum_of_noLeadingDigit (b : List Char)
    (hb : noLeadingDigit b = true) (acc : Nat) :
    phScanAux (.inNum acc) b = acc :: phScanAux .out b := by
  cases b with
  | nil => rfl
  | cons c rest =>
    simp only [noLeadingDigit, Bool.not_eq_true'] at hb
    simp only [phScanAux, hb, if_false, Bool.false_eq_true]

theorem phScanAux_append (b : List Char) (hb : noLeadingDigit b = true) :
    ∀ (a : List Char) (st : ScanState),
      phScanAux st (a ++ b) = phScanAux st a ++ phScanAux .out b := by
  intro a
  induction a with
  | nil =>
    intro st
    cases st with
    | out => rfl
    | afterDollar => simpa using phScanAux_afterDollar_of_noLeadingDigit b hb
    | inNum acc => simpa using phScanAux_inNum_of_noLeadingDigit b hb acc
  | cons c a' ih =>
    intro st
    cases st with
    | out =>
      by_cases hc : c = '$' <;> simp [phScanAux, hc, ih]
    | afterDollar =>
      by_cases hd : c.isDigit
      · simp [phScanAux, hd, ih]
      · by_cases hc : c = '$' <;> simp [phScanAux, hd, hc, ih]
    | inNum acc =>
      by_cases hd : c.isDigit
      · simp [phScanAux, hd, ih]
      · by_cases hc : c = '$' <;> simp [phScanAux, hd, hc, ih]

theorem phScanAux_inNum_digits (b : List Char) :
    ∀ ds : List Char, (∀ c ∈ ds, c.isDigit = true) → ∀ acc : Nat,
      phScanAux (.inNum acc) (ds ++ b) =
        phScanAux (.inNum (ds.foldl (fun n c => n * 10 + (c.toNat - 48)) acc)) b := by
  intro ds
  induction ds with
  | nil => intro _ acc; rfl
  | cons d ds' ih =>
    intro h acc
    have hd : d.isDigit = true := h d (List.mem_cons_self d ds')
    simp only [List.cons_append, phScanAux, hd, if_true, List.foldl_cons]
    exact ih (fun c hc => h c (List.mem_cons_of_mem d hc)) _

/-! ### Decimal numeral lemmas -/

theorem digitChar_spec (m : Nat) (h : m < 10) :
    (Char.ofNat (48 + m)).isDigit = true ∧ (Char.ofNat (48 + m)).toNat = 48 + m := by
  interval_cases m <;> exact ⟨by decide, by decide⟩

theorem natDigitsAux_spec : ∀ fuel n, n ≤ fuel →
    natDigitsAux fuel n ≠ [] ∧ (∀ c ∈ natDigitsAux fuel n, c.isDigit = true) ∧
      digitsVal (natDigitsAux fuel n) = n := by
  intro fuel
  induction fuel with
  | zero =>
    intro n hn
    interval_cases n
    exact ⟨by simp [natDigitsAux], by decide, by decide⟩
  | succ fuel ih =>
    intro n hn
    by_cases h10 : n < 10
    · refine ⟨by simp [natDigitsAux, h10], ?_, ?_⟩
      · intro c hc
        simp only [natDigitsAux, if_pos h10, List.mem_singleton] at hc
        exact hc ▸ (digitChar_spec n h10).1
      · simp only [natDigitsAux, if_pos h10, digitsVal, List.foldl_cons, List.foldl_nil]
        rw [(digitChar_spec n h10).2]
        omega
    · have hpos : 0 < n := by omega
      have hlt : n / 10 < n := Nat.div_lt_self hpos (by omega)
      obtain ⟨hne, hdig, hval⟩ := ih (n / 10) (by omega)
      have hmod : n % 10 < 10 := Nat.mod_lt n (by omega)
      refine ⟨by simp [natDigitsAux, h10], ?_, ?_⟩
      · intro c hc
        simp only [natDigitsAux, if_neg h10, List.mem_append, List.mem_singleton] at hc
        rcases hc with hc | hc
        · exact hdig c hc
        · exact hc ▸ (digitChar_spec (n % 10) hmod).1
      · simp only [natDigitsAux, if_neg h10, digitsVal, List.foldl_append,
                   List.foldl_cons, List.foldl_nil]
        have : List.foldl (fun n c => n * 10 + (c.toNat - 48)) 0 (natDigitsAux fuel (n / 10))
            = n / 10 := hval
        rw [this, (digitChar_spec (n % 10) hmod).2]
        omega

theorem natDigits_spec (n : Nat) :
    natDigits n ≠ [] ∧ (∀ c ∈ natDigits n, c.isDigit = true) ∧
      digitsVal (natDigits n) = n :=
  natDigitsAux_spec n n le_rfl

theorem phScanAux_placeholder_append (i : Nat) (b : List Char)
    (hb : noLeadingDigit b = true) :
    phScanAux .out (('$' :: natDigits i) ++ b) = i :: phScanAux .out b := by
  obtain ⟨hne, hdig, hval⟩ := natDigits_spec i
  cases hd : natDigits i with
  | nil => exact absurd hd hne
  | cons d ds =>
    have hd1 : d.isDigit = true := hdig d (hd ▸ List.mem_cons_self d ds)
    have hds : ∀ c ∈ ds, c.isDigit = true := fun c hc =>
      hdig c (hd ▸ List.mem_cons_of_mem d hc)
    simp only [hd, List.cons_append, phScanAux, if_pos rfl, hd1, if_true]
    show phScanAux (ScanState.inNum (d.toNat - 48)) (ds ++ b) = _
    rw [phScanAux_inNum_digits b ds hds]
    rw [phScanAux_inNum_of_noLeadingDigit b hb]
    have hfold : ds.foldl (fun n c => n * 10 + (c.toNat - 48)) (d.toNat - 48)
        = digitsVal (d :: ds) := by
      simp [digitsVal, List.foldl_cons]
    rw [hfold, ← hd, hval]

/-! ### String-level placeholder facts -/

theorem phList_append_left_dollarFree (s t : String) (h : dollarFree s.data = true) :
    phList (s ++ t) = phList t := by
  simp only [phList, String.data_append]
  exact phScanAux_out_dollarFree t.data s.data h

theorem phList_append (s t : String) (h : noLeadingDigit t.data = true) :
    phList (s ++ t) = phList s ++ phList t := by
  simp only [phList, String.data_append]
  exact phScanAux_append t.data h s.data .out

theorem phList_of_dollarFree (s : String) (h : dollarFree s.data = true) :
    phList s = [] := by
  have := phScanAux_out_dollarFree [] s.data h
  simpa [phList] using this

theorem phList_placeholder_append (i : Nat) (t : String)
    (h : noLeadingDigit t.data = true) :
    phList (placeholder i ++ t) = i :: phList t := by
  simp only [phList, String.data_append, placeholder]
  exact phScanAux_placeholder_append i t.data h

theorem phList_placeholder (i : Nat) : phList (placeholder i) = [i] := by
  simpa [phList, placeholder] using phScanAux_placeholder_append i [] rfl

theorem noLeadingDigit_placeholder (i : Nat) :
    noLeadingDigit (placeholder i).data = true := rfl

theorem noLeadingDigit_append (a b : List Char) (ha : noLeadingDigit a = true)
    (hb : noLeadingDigit b = true) : noLeadingDigit (a ++ b) = true := by
  cases a with
  | nil => simpa using hb
  | cons c a' => simpa [noLeadingDigit] using ha

theorem dollarFree_append (a b : List Char) (ha : dollarFree a = true)
    (hb : dollarFree b = true) : dollarFree (a ++ b) = true := by
  simp only [dollarFree, List.all_append, Bool.and_eq_true]
  exact ⟨ha, hb⟩

/-! ### Placeholder runs -/

theorem phRuns_noLeadingDigit {i : Nat} {ts : List String} {vals : List Value}
    (h : PhRuns i ts vals) : ∀ t ∈ ts, noLeadingDigit t.data = true := by
  induction h with
  | nil => intro t ht; cases ht
  | cons i t vs ts rest h1 h2 h3 ih =>
    intro t' ht'
    rcases List.mem_cons.1 ht' with h | h
    · exact h ▸ h2
    · exact ih t' h

theorem phRuns_joinWith (sep : String) (hsd : dollarFree sep.data = true)
    (hsn : noLeadingDigit sep.data = true) {i : Nat} {ts : List String}
    {vals : List Value} (h : PhRuns i ts vals) :
    phList (joinWith sep ts) = List.range' i vals.length ∧
      noLeadingDigit (joinWith sep ts).data = true := by
  induction h with
  | nil => exact ⟨rfl, rfl⟩
  | cons i t vs ts rest h1 h2 h3 ih =>
    cases ts with
    | nil =>
      cases h3
      simp only [joinWith, List.append_nil]
      exact ⟨h1, h2⟩
    | cons t2 ts' =>
      obtain ⟨ihp, ihn⟩ := ih
      have hjoin : joinWith sep (t :: t2 :: ts') = t ++ sep ++ joinWith sep (t2 :: ts') :=
        rfl
      have step1 : phList (t ++ sep ++ joinWith sep (t2 :: ts'))
          = phList (t ++ sep) ++ phList (joinWith sep (t2 :: ts')) :=
        phList_append _ _ ihn
      have step2 : phList (t ++ sep) = phList t ++ phList sep :=
        phList_append _ _ hsn
      have step3 : phList sep = [] := phList_of_dollarFree _ hsd
      rw [hjoin]
      constructor
      · rw [step1, step2, step3, h1, ihp, List.append_nil, List.length_append]
        rw [Nat.add_comm vs.length rest.length]
        have hra := List.range'_append i vs.length rest.length 1
        rw [Nat.one_mul] at hra
        exact hra
      · rw [String.data_append, String.data_append]
        exact noLeadingDigit_append _ _ (noLeadingDigit_append _ _ h2 hsn) ihn

/-! ### The serializer emits exactly the placeholders it binds -/

theorem buildSql_scalar (v : Value) (hs : isScalar v = true) (i : Nat) :
    buildSql v i = .ok (placeholder i, [v]) := by
  cases v with
  | vNull => rfl
  | vInt n => rfl
  | vStr s => rfl
  | vBool b => rfl
  | vList xs => simp [isScalar] at hs
  | vBuilder b => simp [isScalar] at hs

theorem scalar_ph (v : Value) (hs : isScalar v = true) (i : Nat) (t : String)
    (vals : List Value) (hok : buildSql v i = .ok (t, vals)) :
    phList t = List.range' i vals.length ∧ noLeadingDigit t.data = true := by
  rw [buildSql_scalar v hs] at hok
  simp only [Except.ok.injEq, Prod.mk.injEq] at hok
  obtain ⟨h1, h2⟩ := hok
  subst h1; subst h2
  exact ⟨by simp [phList_placeholder, List.range'_one], noLeadingDigit_placeholder i⟩

theorem ph_main : ∀ N : Nat,
    (∀ v : Value, sizeOf v ≤ N → GoodV v → ∀ i t vals,
        buildSql v i = .ok (t, vals) →
        phList t = List.range' i vals.length ∧ noLeadingDigit t.data = true) ∧
    (∀ xs : List Value, sizeOf xs ≤ N → (∀ v ∈ xs, GoodV v) → ∀ i ts vals,
        buildSqlList xs i = .ok (ts, vals) → PhRuns i ts vals) := by
  intro N
  induction N using Nat.strong_induction_on with
  | _ N ih =>
    constructor
    · intro v hsize hg i t vals hok
      cases hg with
      | vNull => exact scalar_ph Value.vNull rfl i t vals hok
      | vInt n => exact scalar_ph (Value.vInt n) rfl i t vals hok
      | vStr s => exact scalar_ph (Value.vStr s) rfl i t vals hok
      | vBool b => exact scalar_ph (Value.vBool b) rfl i t vals hok
      | vList xs hxs =>
        have hsz : sizeOf xs < N := by
          have h1 : sizeOf (Value.vList xs) = 1 + sizeOf xs := by
            simp
          omega
        cases hbl : buildSqlList xs i with
        | error e =>
          simp only [buildSql, hbl] at hok
          cases hok
        | ok r =>
          simp only [buildSql, hbl, Except.ok.injEq, Prod.mk.injEq] at hok
          obtain ⟨h1, h2⟩ := hok
          subst h1; subst h2
          have hruns := (ih (sizeOf xs) hsz).2 xs le_rfl hxs i r.1 r.2 hbl
          obtain ⟨hph, hnl⟩ := phRuns_joinWith ", " rfl rfl hruns
          constructor
          · rw [phList_append _ _ (by rfl), phList_append_left_dollarFree _ _ (by rfl),
                hph, show phList ")" = [] from rfl, List.append_nil]
          · rw [String.data_append, String.data_append]
            exact noLeadingDigit_append _ _ (noLeadingDigit_append _ _ rfl hnl) rfl
      | vBuilder b hb =>
        cases hb with
        | raw s h1 h2 =>
          simp only [buildSql, serializeBuilder, Except.ok.injEq, Prod.mk.injEq] at hok
          obtain ⟨h3, h4⟩ := hok
          subst h3; subst h4
          exact ⟨by simp [h1], h2⟩
        | param v =>
          simp only [buildSql, serializeBuilder, Except.ok.injEq, Prod.mk.injEq] at hok
          obtain ⟨h3, h4⟩ := hok
          subst h3; subst h4
          exact ⟨by simp [phList_placeholder, List.range'_one], noLeadingDigit_placeholder i⟩
        | composite f hf =>
          exact hf i t vals hok
    · intro xs hsize hg i ts vals hok
      cases xs with
      | nil =>
        simp only [buildSqlList, Except.ok.injEq, Prod.mk.injEq] at hok
        obtain ⟨h1, h2⟩ := hok
        subst h1; subst h2
        exact PhRuns.nil i
      | cons v vs =>
        have hcons : sizeOf (v :: vs) = 1 + sizeOf v + sizeOf vs := by
          simp
        have hszv : sizeOf v < N := by omega
        have hszvs : sizeOf vs < N := by omega
        cases hbv : buildSql v i with
        | error e =>
          simp only [buildSqlList, hbv] at hok
          cases hok
        | ok s =>
          cases hbl : buildSqlList vs (i + s.2.length) with
          | error e =>
            simp only [buildSqlList, hbv, hbl] at hok
            cases hok
          | ok r =>
            simp only [buildSqlList, hbv, hbl, Except.ok.injEq, Prod.mk.injEq] at hok
            obtain ⟨h1, h2⟩ := hok
            subst h1; subst h2
            have hv := (ih (sizeOf v) hszv).1 v le_rfl
              (hg v (List.mem_cons_self v vs)) i s.1 s.2 hbv
            have hrec := (ih (sizeOf vs) hszvs).2 vs le_rfl
              (fun u hu => hg u (List.mem_cons_of_mem v hu)) (i + s.2.length) r.1 r.2 hbl
            exact PhRuns.cons i s.1 s.2 r.1 r.2 hv.1 hv.2 hrec

theorem goodV_ph (v : Value) (hg : GoodV v) (i : Nat) (t : String)
    (vals : List Value) (hok : buildSql v i = .ok (t, vals)) :
    phList t = List.range' i vals.length ∧ noLeadingDigit t.data = true :=
  (ph_main (sizeOf v)).1 v le_rfl hg i t vals hok

theorem goodV_phRuns (xs : List Value) (hg : ∀ v ∈ xs, GoodV v) (i : Nat)
    (ts : List String) (vals : List Value)
    (hok : buildSqlList xs i = .ok (ts, vals)) : PhRuns i ts vals :=
  (ph_main (sizeOf xs)).2 xs le_rfl hg i ts vals hok

/-! ### Support lemmas on identifiers, joins and the template tag -/

theorem escapeQuotes_dollarFree (cs : List Char) (h : dollarFree cs = true) :
    dollarFree (escapeQuotes cs) = true := by
  induction cs with
  | nil => rfl
  | cons c rest ih =>
    simp only [dollarFree, List.all_cons, Bool.and_eq_true] at h
    by_cases hq : c = Char.ofNat 34
    · simp only [escapeQuotes, if_pos hq, dollarFree, List.all_cons, Bool.and_eq_true]
      refine ⟨by decide, by decide, ?_⟩
      exact ih h.2
    · simp only [escapeQuotes, if_neg hq, dollarFree, List.all_cons, Bool.and_eq_true]
      exact ⟨h.1, ih h.2⟩

theorem escapeIdentifier_dollarFree (c : String) (h : dollarFree c.data = true) :
    dollarFree (escapeIdentifier c).data = true := by
  show dollarFree (Char.ofNat 34 :: (escapeQuotes c.data ++ [Char.ofNat 34])) = true
  simp only [dollarFree, List.all_cons, List.all_append, Bool.and_eq_true]
  exact ⟨by decide, escapeQuotes_dollarFree c.data h, by decide⟩

theorem joinWith_empty_cons (x : String) (l : List String) :
    joinWith "" (x :: l) = x ++ joinWith "" l := by
  cases l with
  | nil => simp [joinWith]
  | cons y rest =>
    show x ++ "" ++ joinWith "" (y :: rest) = _
    rw [String.append_empty]

theorem joinWith_dollarFree (sep : String) (hsep : dollarFree sep.data = true) :
    ∀ l : List String, (∀ x ∈ l, dollarFree x.data = true) →
      dollarFree (joinWith sep l).data = true := by
  intro l
  induction l with
  | nil => intro _; rfl
  | cons x rest ih =>
    intro h
    cases rest with
    | nil => exact h x (List.mem_singleton.2 rfl)
    | cons y rest' =>
      show dollarFree ((x ++ sep ++ joinWith sep (y :: rest')).data) = true
      rw [String.data_append, String.data_append]
      refine dollarFree_append _ _ (dollarFree_append _ _ ?_ hsep) ?_
      · exact h x (List.mem_cons_self x _)
      · exact ih fun z hz => h z (List.mem_cons_of_mem x hz)

theorem joinWith_noLeadingDigit (sep : String) (hsep : noLeadingDigit sep.data = true) :
    ∀ l : List String, (∀ x ∈ l, noLeadingDigit x.data = true) →
      noLeadingDigit (joinWith sep l).data = true := by
  intro l
  induction l with
  | nil => intro _; rfl
  | cons x rest ih =>
    intro h
    cases rest with
    | nil => exact h x (List.mem_singleton.2 rfl)
    | cons y rest' =>
      show noLeadingDigit ((x ++ sep ++ joinWith sep (y :: rest')).data) = true
      rw [String.data_append, String.data_append]
      refine noLeadingDigit_append _ _ (noLeadingDigit_append _ _ ?_ hsep) ?_
      · exact h x (List.mem_cons_self x _)
      · exact ih fun z hz => h z (List.mem_cons_of_mem x hz)

theorem mem_mergeLists : ∀ (a b : List String) (x : String),
    x ∈ mergeLists a b → x ∈ a ∨ x ∈ b := by
  intro a
  induction a with
  | nil => intro b x hx; cases hx
  | cons t ts ih =>
    intro b x hx
    cases b with
    | nil => exact Or.inl hx
    | cons s ss =>
      rcases List.mem_cons.1 hx with h | h
      · exact Or.inl (h ▸ List.mem_cons_self t ts)
      · rcases List.mem_cons.1 h with h' | h'
        · exact Or.inr (h' ▸ List.mem_cons_self s ss)
        · rcases ih ss x h' with h'' | h''
          · exact Or.inl (List.mem_cons_of_mem t h'')
          · exact Or.inr (List.mem_cons_of_mem s h'')

theorem buildSqlList_length : ∀ (xs : List Value) (i : Nat) (ts : List String)
    (vals : List Value), buildSqlList xs i = .ok (ts, vals) → ts.length = xs.length := by
  intro xs
  induction xs with
  | nil =>
    intro i ts vals hok
    simp only [buildSqlList, Except.ok.injEq, Prod.mk.injEq] at hok
    obtain ⟨h1, h2⟩ := hok
    subst h1
    rfl
  | cons v vs ih =>
    intro i ts vals hok
    cases hbv : buildSql v i with
    | error e => simp only [buildSqlList, hbv] at hok; cases hok
    | ok s =>
      cases hbl : buildSqlList vs (i + s.2.length) with
      | error e => simp only [buildSqlList, hbv, hbl] at hok; cases hok
      | ok r =>
        simp only [buildSqlList, hbv, hbl, Except.ok.injEq, Prod.mk.injEq] at hok
        obtain ⟨h1, h2⟩ := hok
        subst h1
        simpa using ih _ r.1 r.2 hbl

theorem specSerialize_eq_buildSqlList : ∀ (es : List Value) (i : Nat),
    specSerialize es i = buildSqlList es i := by
  intro es
  induction es with
  | nil => intro i; rfl
  | cons v vs ih =>
    intro i
    simp only [specSerialize, buildSqlList]
    cases h : buildSql v i with
    | error e => rfl
    | ok s =>
      show (match specSerialize vs (i + s.2.length) with
            | Except.error err => Except.error err
            | Except.ok r => Except.ok (s.1 :: r.1, s.2 ++ r.2)) = _
      rw [ih]

theorem serializeExpressions_eq : ∀ (es : List Value) (acc : List Value),
    serializeExpressions es acc =
      match buildSqlList es (acc.length + 1) with
      | .error e => .error e
      | .ok r => .ok (r.1, acc ++ r.2) := by
  intro es
  induction es with
  | nil => intro acc; simp [serializeExpressions, buildSqlList]
  | cons v vs ih =>
    intro acc
    simp only [serializeExpressions, buildSqlList]
    cases hbv : buildSql v (acc.length + 1) with
    | error e => rfl
    | ok s =>
      show (match serializeExpressions vs (acc ++ s.2) with
            | Except.error e => Except.error e
            | Except.ok r => Except.ok (s.1 :: r.1, r.2)) = _
      rw [ih (acc ++ s.2)]
      have hlen : (acc ++ s.2).length + 1 = acc.length + 1 + s.2.length := by
        rw [List.length_append]; omega
      rw [hlen]
      show _ = (match (match buildSqlList vs (acc.length + 1 + s.2.length) with
                       | Except.error err => Except.error err
                       | Except.ok r => Except.ok (s.1 :: r.1, s.2 ++ r.2)) with
                | Except.error err => Except.error err
                | Except.ok r => Except.ok (r.1, acc ++ r.2))
      cases buildSqlList vs (acc.length + 1 + s.2.length) with
      | error e => rfl
      | ok r => simp [List.append_assoc]

theorem sql_eq (texts : List String) (es : List Value) :
    sql texts es =
      match buildSqlList es 1 with
      | .error e => .error e
      | .ok r => .ok { text := joinWith "" (mergeLists texts r.1), values := r.2 } := by
  unfold sql
  rw [serializeExpressions_eq es []]
  simp only [List.length_nil, Nat.zero_add]
  cases h : buildSqlList es 1 with
  | error e => rfl
  | ok r => simp

/-! ### The spread helpers are well-behaved builders -/

theorem setter_text_ph (c : String) (hc : dollarFree c.data = true)
    (t : String) (i : Nat) (vals : List Value)
    (hph : phList t = List.range' i vals.length) :
    phList (escapeIdentifier c ++ " = " ++ t) = List.range' i vals.length ∧
      noLeadingDigit (escapeIdentifier c ++ " = " ++ t).data = true := by
  constructor
  · have hpre : dollarFree ((escapeIdentifier c ++ " = ").data) = true := by
      rw [String.data_append]
      exact dollarFree_append _ _ (escapeIdentifier_dollarFree c hc) rfl
    rw [phList_append_left_dollarFree _ _ hpre, hph]
  · rfl

theorem serializeSetters_phRuns :
    ∀ (entries : List (String × Value)),
      (∀ kv ∈ entries, GoodV kv.2 ∧ dollarFree kv.1.data = true) →
      ∀ i ts vals, serializeSetters entries i = .ok (ts, vals) → PhRuns i ts vals := by
  intro entries
  induction entries with
  | nil =>
    intro _ i ts vals hok
    simp only [serializeSetters, Except.ok.injEq, Prod.mk.injEq] at hok
    obtain ⟨h1, h2⟩ := hok
    subst h1; subst h2
    exact PhRuns.nil i
  | cons kv rest ih =>
    intro h i ts vals hok
    obtain ⟨c, v⟩ := kv
    cases hbv : buildSql v i with
    | error e => simp only [serializeSetters, hbv] at hok; cases hok
    | ok s =>
      cases hbr : serializeSetters rest (i + s.2.length) with
      | error e => simp only [serializeSetters, hbv, hbr] at hok; cases hok
      | ok r =>
        simp only [serializeSetters, hbv, hbr, Except.ok.injEq, Prod.mk.injEq] at hok
        obtain ⟨h1, h2⟩ := hok
        subst h1; subst h2
        have hcv := h (c, v) (List.mem_cons_self _ _)
        have hv := goodV_ph v hcv.1 i s.1 s.2 hbv
        have hset := setter_text_ph c hcv.2 s.1 i s.2 hv.1
        exact PhRuns.cons i _ s.2 r.1 r.2 hset.1 hset.2
          (ih (fun kv hkv => h kv (List.mem_cons_of_mem _ hkv)) _ r.1 r.2 hbr)

theorem goodB_spreadAnd (record : Record)
    (h : ∀ kv ∈ filterUndefined record, GoodV kv.2 ∧ dollarFree kv.1.data = true) :
    GoodB (spreadAnd record) := by
  apply GoodB.composite
  intro i t vals hok
  cases hs : serializeSetters (filterUndefined record) i with
  | error e => simp only [spreadAnd, hs] at hok; cases hok
  | ok r =>
    simp only [spreadAnd, hs, Except.ok.injEq, Prod.mk.injEq] at hok
    obtain ⟨h1, h2⟩ := hok
    subst h1; subst h2
    have hruns := serializeSetters_phRuns _ h i r.1 r.2 hs
    obtain ⟨hph, hnl⟩ := phRuns_joinWith " AND " rfl rfl hruns
    constructor
    · rw [phList_append _ _ (by rfl), phList_append_left_dollarFree _ _ (by rfl),
          hph, show phList ")" = [] from rfl, List.append_nil]
    · rw [String.data_append, String.data_append]
      exact noLeadingDigit_append _ _ (noLeadingDigit_append _ _ rfl hnl) rfl

theorem goodB_spreadUpdate (record : Record)
    (h : ∀ kv ∈ filterUndefined record, GoodV kv.2 ∧ dollarFree kv.1.data = true) :
    GoodB (spreadUpdate record) := by
  apply GoodB.composite
  intro i t vals hok
  cases hs : serializeSetters (filterUndefined record) i with
  | error e => simp only [spreadUpdate, hs] at hok; cases hok
  | ok r =>
    simp only [spreadUpdate, hs, Except.ok.injEq, Prod.mk.injEq] at hok
    obtain ⟨h1, h2⟩ := hok
    subst h1; subst h2
    exact phRuns_joinWith ", " rfl rfl (serializeSetters_phRuns _ h i r.1 r.2 hs)

theorem serializeInsertRow_phRuns (record : Record)
    (hrec : ∀ c v, lookupRecord record c = some v → GoodV v) :
    ∀ (cols : List String) (i : Nat) (ts : List String) (vals : List Value),
      serializeInsertRow record cols i = .ok (ts, vals) → PhRuns i ts vals := by
  intro cols
  induction cols with
  | nil =>
    intro i ts vals hok
    simp only [serializeInsertRow, Except.ok.injEq, Prod.mk.injEq] at hok
    obtain ⟨h1, h2⟩ := hok
    subst h1; subst h2
    exact PhRuns.nil i
  | cons c cols' ih =>
    intro i ts vals hok
    cases hlk : lookupRecord record c with
    | none => simp only [serializeInsertRow, hlk] at hok; cases hok
    | some v =>
      cases hbv : buildSql v i with
      | error e => simp only [serializeInsertRow, hlk, hbv] at hok; cases hok
      | ok s =>
        cases hbr : serializeInsertRow record cols' (i + s.2.length) with
        | error e => simp only [serializeInsertRow, hlk, hbv, hbr] at hok; cases hok
        | ok r =>
          simp only [serializeInsertRow, hlk, hbv, hbr, Except.ok.injEq,
                     Prod.mk.injEq] at hok
          obtain ⟨h1, h2⟩ := hok
          subst h1; subst h2
          have hv := goodV_ph v (hrec c v hlk) i s.1 s.2 hbv
          exact PhRuns.cons i s.1 s.2 r.1 r.2 hv.1 hv.2 (ih _ r.1 r.2 hbr)

theorem serializeInsertRows_phRuns (columns : List String) :
    ∀ (records : List Record),
      (∀ record ∈ records, ∀ c v, lookupRecord record c = some v → GoodV v) →
      ∀ (i : Nat) (ts : List String) (vals : List Value),
        serializeInsertRows columns records i = .ok (ts, vals) → PhRuns i ts vals := by
  intro records
  induction records with
  | nil =>
    intro _ i ts vals hok
    simp only [serializeInsertRows, Except.ok.injEq, Prod.mk.injEq] at hok
    obtain ⟨h1, h2⟩ := hok
    subst h1; subst h2
    exact PhRuns.nil i
  | cons record rs ih =>
    intro h i ts vals hok
    cases hrow : serializeInsertRow record columns i with
    | error e => simp only [serializeInsertRows, hrow] at hok; cases hok
    | ok row =>
      cases hrest : serializeInsertRows columns rs (i + row.2.length) with
      | error e => simp only [serializeInsertRows, hrow, hrest] at hok; cases hok
      | ok r =>
        simp only [serializeInsertRows, hrow, hrest, Except.ok.injEq,
                   Prod.mk.injEq] at hok
        obtain ⟨h1, h2⟩ := hok
        subst h1; subst h2
        have hrowruns := serializeInsertRow_phRuns record
          (h record (List.mem_cons_self _ _)) columns i row.1 row.2 hrow
        obtain ⟨hph, hnl⟩ := phRuns_joinWith ", " rfl rfl hrowruns
        exact PhRuns.cons i _ row.2 r.1 r.2 hph hnl
          (ih (fun rec hrc => h rec (List.mem_cons_of_mem _ hrc)) _ r.1 r.2 hrest)

theorem goodB_spreadInsert (records : List Record)
    (hcols : ∀ c ∈ extractKeys (records.map filterUndefined), dollarFree c.data = true)
    (hvals : ∀ record ∈ records, ∀ c v, lookupRecord record c = some v → GoodV v) :
    GoodB (spreadInsert records) := by
  apply GoodB.composite
  intro i t vals hok
  cases hs : serializeInsertRows (extractKeys (records.map filterUndefined)) records i with
  | error e => simp only [spreadInsert, hs] at hok; cases hok
  | ok r =>
    simp only [spreadInsert, hs, Except.ok.injEq, Prod.mk.injEq] at hok
    obtain ⟨h1, h2⟩ := hok
    subst h1; subst h2
    have hruns := serializeInsertRows_phRuns _ records hvals i r.1 r.2 hs
    obtain ⟨hph, hnl⟩ := phRuns_joinWith "), (" rfl rfl hruns
    have hprefix : dollarFree (("(" ++
        joinWith ", " ((extractKeys (records.map filterUndefined)).map escapeIdentifier)
          ++ ")" ++ " VALUES " ++ "(").data) = true := by
      rw [String.data_append, String.data_append, String.data_append,
          String.data_append]
      refine dollarFree_append _ _ (dollarFree_append _ _ (dollarFree_append _ _
        (dollarFree_append _ _ rfl ?_) rfl) rfl) rfl
      refine joinWith_dollarFree ", " rfl _ ?_
      intro x hx
      obtain ⟨c, hc, rfl⟩ := List.mem_map.1 hx
      exact escapeIdentifier_dollarFree c (hcols c hc)
    constructor
    · rw [phList_append _ _ (by rfl)]
      rw [show ("(" ++ joinWith ", "
            ((extractKeys (records.map filterUndefined)).map escapeIdentifier)
            ++ ")" ++ " VALUES " ++ "(" ++ joinWith "), (" r.1)
          = (("(" ++ joinWith ", "
              ((extractKeys (records.map filterUndefined)).map escapeIdentifier)
              ++ ")" ++ " VALUES " ++ "(") ++ joinWith "), (" r.1) from rfl]
      rw [phList_append_left_dollarFree _ _ hprefix, hph,
          show phList ")" = [] from rfl, List.append_nil]
    · rfl

/-! ### Placeholders of a full template -/

theorem phList_merge {i : Nat} {ts : List String} {vals : List Value}
    (h : PhRuns i ts vals) :
    ∀ texts : List String,
      (∀ L ∈ texts, dollarFree L.data = true ∧ noLeadingDigit L.data = true) →
      texts.length = ts.length + 1 →
      phList (joinWith "" (mergeLists texts ts)) = List.range' i vals.length := by
  induction h with
  | nil i =>
    intro texts htexts hlen
    cases texts with
    | nil => simp only [List.length_nil, List.length_cons] at hlen; omega
    | cons L texts' =>
      cases texts' with
      | cons a b =>
        simp only [List.length_cons, List.length_nil] at hlen
        omega
      | nil =>
        rw [show mergeLists [L] ([] : List String) = [L] from rfl,
            show joinWith "" [L] = L from rfl,
            phList_of_dollarFree L (htexts L (List.mem_singleton.2 rfl)).1]
        rfl
  | cons i t vs ts rest h1 h2 h3 ih =>
    intro texts htexts hlen
    cases texts with
    | nil => simp only [List.length_nil, List.length_cons] at hlen; omega
    | cons L texts' =>
      cases texts' with
      | nil =>
        simp only [List.length_cons, List.length_nil] at hlen
        omega
      | cons L2 texts'' =>
        have hlen' : (L2 :: texts'').length = ts.length + 1 := by
          simp only [List.length_cons] at hlen ⊢
          omega
        have hL := htexts L (List.mem_cons_self L _)
        have hJn : noLeadingDigit ((joinWith "" (mergeLists (L2 :: texts'') ts)).data)
            = true := by
          apply joinWith_noLeadingDigit "" rfl
          intro x hx
          rcases mem_mergeLists _ _ x hx with hx' | hx'
          · exact (htexts x (List.mem_cons_of_mem L hx')).2
          · exact phRuns_noLeadingDigit h3 x hx'
        rw [show mergeLists (L :: L2 :: texts'') (t :: ts)
              = L :: t :: mergeLists (L2 :: texts'') ts from rfl,
            joinWith_empty_cons, joinWith_empty_cons,
            phList_append_left_dollarFree L _ hL.1,
            phList_append _ _ hJn, h1,
            ih (L2 :: texts'') (fun x hx => htexts x (List.mem_cons_of_mem L hx)) hlen',
            List.length_append, Nat.add_comm vs.length rest.length]
        have hra := List.range'_append i vs.length rest.length 1
        rw [Nat.one_mul] at hra
        exact hra

/-! ### Claim C1 -/

/-- C1 (amended): for every Query Object returned by `sql` from a template
whose literal segments contain no dollar sign and do not begin with a
decimal digit, and whose interpolated expressions are scalars, lists of
such, or well-behaved builders (`GoodV`), the placeholder tokens appearing
in `text` are exactly `$1 … $n` in increasing order with no index skipped
or duplicated, where `n = values.length`, so placeholder `k` corresponds to
`values[k-1]`. -/
theorem sql_placeholder_correspondence (texts : List String) (exprs : List Value)
    (q : QueryConfig) (hlen : texts.length = exprs.length + 1)
    (htexts : ∀ L ∈ texts, dollarFree L.data = true ∧ noLeadingDigit L.data = true)
    (hexprs : ∀ e ∈ exprs, GoodV e) (hok : sql texts exprs = .ok q) :
    phList q.text = List.range' 1 q.values.length := by
  rw [sql_eq] at hok
  cases hbl : buildSqlList exprs 1 with
  | error e => rw [hbl] at hok; cases hok
  | ok r =>
    rw [hbl] at hok
    simp only [Except.ok.injEq] at hok
    subst hok
    have hruns := goodV_phRuns exprs hexprs 1 r.1 r.2 hbl
    have hlents := buildSqlList_length exprs 1 r.1 r.2 hbl
    exact phList_merge hruns texts htexts (by rw [hlen, hlents])

/-- Witness for C1: the query `sql("WHERE a = ", " AND b = ", ""; 4, "x")`
produces the text `WHERE a = $1 AND b = $2` whose placeholder tokens are
exactly `$1, $2` for its two values. -/
theorem sql_placeholder_correspondence_witness :
    phList "WHERE a = $1 AND b = $2" = List.range' 1 2 :=
  sql_placeholder_correspondence
    ["WHERE a = ", " AND b = ", ""] [.vInt 4, .vStr "x"]
    ⟨"WHERE a = $1 AND b = $2", [.vInt 4, .vStr "x"]⟩
    rfl (by decide)
    (by
      intro e he
      simp only [List.mem_cons, List.not_mem_nil, or_false] at he
      rcases he with rfl | rfl
      · exact GoodV.vInt 4
      · exact GoodV.vStr "x")
    rfl

/-- Counterexample for C1 as stated: the legal template literal
query with single literal segment `$1` and no interpolations produces a
Query Object whose text contains the placeholder token `$1` while `values`
is empty, so the number of placeholder tokens differs from
`values.length`. -/
theorem sql_placeholder_correspondence_counterexample :
    sql ["$1"] [] = .ok ⟨"$1", []⟩ ∧ phList "$1" = [1] ∧
      phList "$1" ≠ List.range' 1 (([] : List Value)).length :=
  ⟨rfl, rfl, by decide⟩

/-! ### Claim C3 -/

/-- C3: the template tag refines the specified left-to-right algorithm —
each expression is serialized at the explicit running index `1 +` the
number of values accumulated so far, the final text interleaves literal
segments and serialized texts in original order, and the final values are
the concatenation of the per-expression values in consumption order. -/
theorem sql_refines_spec (texts : List String) (exprs : List Value) :
    sql texts exprs = specSql texts exprs := by
  rw [sql_eq]
  unfold specSql
  rw [specSerialize_eq_buildSqlList]
  cases buildSqlList exprs 1 with
  | error e => rfl
  | ok r => rfl

/-! ### Claim C9 -/

/-- C9: `sql.safe` serializes to exactly one placeholder at the start index
with the wrapped value as its single bound parameter, for every value —
including lists and builders — both directly and through the value
serializer. -/
theorem safe_single_parameter (v : Value) (i : Nat) :
    serializeBuilder (safeExpression v) i = .ok (placeholder i, [v]) ∧
      buildSql (.vBuilder (safeExpression v)) i = .ok (placeholder i, [v]) :=
  ⟨rfl, rfl⟩

/-! ### Claim C10 -/

/-- C10: `spreadAnd` of a record with no defined entries serializes, for
every start index, to exactly the text `()` with no values — it does not
fail and binds no parameters. -/
theorem spreadAnd_empty (record : Record) (i : Nat)
    (h : filterUndefined record = []) :
    serializeBuilder (spreadAnd record) i = .ok ("()", []) := by
  have hunfold : serializeBuilder (spreadAnd record) i
      = match serializeSetters (filterUndefined record) i with
        | .error e => .error e
        | .ok r => .ok ("(" ++ joinWith " AND " r.1 ++ ")", r.2) := rfl
  rw [hunfold, h]
  rfl

/-- Witness for C10 at a record whose only entry is undefined and start
index 7. -/
theorem spreadAnd_empty_witness :
    serializeBuilder (spreadAnd [("a", none)]) 7 = .ok ("()", []) :=
  spreadAnd_empty [("a", none)] 7 rfl

/-! ### Claim C5 -/

/-- C5: serializing any builder twice with the same start index yields the
same result, and for the record-based helpers the output is a function of
the construction input alone — records with equal undefined-filtered
entries give identical `spreadAnd`/`spreadUpdate` serializations at every
start index. -/
theorem serializeBuilder_deterministic (b : SqlBuilder) (s : String) (v : Value)
    (r1 r2 : Record) (rs : List Record) (i : Nat)
    (hr : filterUndefined r1 = filterUndefined r2) :
    serializeBuilder b i = serializeBuilder b i ∧
    serializeBuilder (spreadAnd r1) i = serializeBuilder (spreadAnd r2) i ∧
    serializeBuilder (spreadUpdate r1) i = serializeBuilder (spreadUpdate r2) i ∧
    serializeBuilder (spreadInsert rs) i = serializeBuilder (spreadInsert rs) i ∧
    serializeBuilder (rawExpression s) i = serializeBuilder (rawExpression s) i ∧
    serializeBuilder (safeExpression v) i = serializeBuilder (safeExpression v) i := by
  refine ⟨rfl, ?_, ?_, rfl, rfl, rfl⟩
  · simp only [spreadAnd, hr]
  · simp only [spreadUpdate, hr]

/-- Witness for C5: adding an undefined-valued entry to a record does not
change the `spreadAnd` serialization. -/
theorem serializeBuilder_deterministic_witness :
    serializeBuilder (spreadAnd [("a", some (.vInt 1)), ("b", none)]) 1
      = serializeBuilder (spreadAnd [("a", some (.vInt 1))]) 1 :=
  (serializeBuilder_deterministic (.raw "x") "x" .vNull
    [("a", some (.vInt 1)), ("b", none)] [("a", some (.vInt 1))] [] 1 rfl).2.1

/-! ### Claim C6 -/

theorem serializeSetters_scalar :
    ∀ (entries : List (String × Value)) (i : Nat),
      (∀ kv ∈ entries, isScalar kv.2 = true) →
      serializeSetters entries i
        = .ok (scalarSetters entries i, entries.map Prod.snd) := by
  intro entries
  induction entries with
  | nil => intro i _; rfl
  | cons kv rest ih =>
    intro i h
    obtain ⟨c, v⟩ := kv
    simp only [serializeSetters,
               buildSql_scalar v (h (c, v) (List.mem_cons_self _ _)) i,
               List.length_cons, List.length_nil, Nat.zero_add]
    rw [ih (i + 1) (fun kv hkv => h kv (List.mem_cons_of_mem _ hkv))]
    simp [scalarSetters]

/-- C6: `spreadUpdate` drops entries whose value is undefined and produces
`escapeIdentifier(column) = $k` for each remaining entry with consecutive
placeholder indices, comma-joined with no wrapping parentheses, binding
exactly the remaining values in order. -/
theorem spreadUpdate_setters (record : Record) (i : Nat)
    (h : ∀ kv ∈ filterUndefined record, isScalar kv.2 = true) :
    serializeBuilder (spreadUpdate record) i =
      .ok (joinWith ", " (scalarSetters (filterUndefined record) i),
           (filterUndefined record).map Prod.snd) := by
  have hunfold : serializeBuilder (spreadUpdate record) i
      = match serializeSetters (filterUndefined record) i with
        | .error e => .error e
        | .ok r => .ok (joinWith ", " r.1, r.2) := rfl
  rw [hunfold, serializeSetters_scalar _ i h]

/-- Witness for C6 at the spec scenario: the record with `name` set and
`email` undefined produces a setter for `name` only, consuming exactly one
parameter, with `email` absent from text and values. -/
theorem spreadUpdate_setters_witness :
    serializeBuilder (spreadUpdate [("name", some (.vStr "John")), ("email", none)]) 1
      = .ok ("\"name\" = $1", [.vStr "John"]) :=
  spreadUpdate_setters [("name", some (.vStr "John")), ("email", none)] 1 (by decide)

/-! ### Claim C8 -/

theorem buildSqlList_scalar :
    ∀ (xs : List Value) (i : Nat), (∀ v ∈ xs, isScalar v = true) →
      buildSqlList xs i = .ok (placeholderList i xs.length, xs) := by
  intro xs
  induction xs with
  | nil => intro i _; rfl
  | cons v vs ih =>
    intro i h
    simp only [buildSqlList,
               buildSql_scalar v (h v (List.mem_cons_self _ _)) i,
               List.length_cons, List.length_nil, Nat.zero_add]
    rw [ih (i + 1) (fun u hu => h u (List.mem_cons_of_mem _ hu))]
    simp [placeholderList, List.range']

/-- C8: a list value serializes each element with running index
continuation, joins the element texts with `", "` and wraps them in
parentheses, binding the element values in order: a list of `n` scalars at
start index `i` yields `($i, …, $(i+n-1))` binding the list itself; the
empty list yields the valid group `()` consuming zero parameters; and an
empty list before another interpolation does not advance the next
placeholder index. -/
theorem list_expansion (xs : List Value) (i : Nat)
    (h : ∀ v ∈ xs, isScalar v = true) :
    buildSql (.vList xs) i
        = .ok ("(" ++ joinWith ", " (placeholderList i xs.length) ++ ")", xs) ∧
      buildSql (.vList []) i = .ok ("()", []) ∧
      sql ["", " ", ""] [.vList [], .vNull] = .ok ⟨"() $1", [.vNull]⟩ := by
  refine ⟨?_, rfl, rfl⟩
  have hunfold : buildSql (.vList xs) i
      = match buildSqlList xs i with
        | .error e => .error e
        | .ok r => .ok ("(" ++ joinWith ", " r.1 ++ ")", r.2) := rfl
  rw [hunfold, buildSqlList_scalar xs i h]

/-- Witness for C8: interpolating `[1,2,3]` at placeholder position 1
yields `($1, $2, $3)` with values `[1,2,3]`. -/
theorem list_expansion_witness :
    buildSql (.vList [.vInt 1, .vInt 2, .vInt 3]) 1
      = .ok ("($1, $2, $3)", [.vInt 1, .vInt 2, .vInt 3]) :=
  (list_expansion [.vInt 1, .vInt 2, .vInt 3] 1 (by decide)).1

/-! ### Claim C2 -/

theorem congr_main : ∀ N : Nat,
    (∀ v w : Value, sizeOf v ≤ N → SameShape v w → ∀ i,
        serializeCongr (buildSql v i) (buildSql w i)) ∧
    (∀ xs ys : List Value, sizeOf xs ≤ N → SameShapeList xs ys → ∀ i,
        serializeListCongr (buildSqlList xs i) (buildSqlList ys i)) := by
  intro N
  induction N using Nat.strong_induction_on with
  | _ N ih =>
    constructor
    · intro v w hsize hs i
      cases hs with
      | scalar v w hv hw =>
        rw [buildSql_scalar v hv i, buildSql_scalar w hw i]
        exact ⟨rfl, rfl⟩
      | list xs ys hl =>
        have hsz : sizeOf xs < N := by
          have h1 : sizeOf (Value.vList xs) = 1 + sizeOf xs := by simp
          omega
        have hcl := (ih (sizeOf xs) hsz).2 xs ys le_rfl hl i
        cases h1 : buildSqlList xs i with
        | error e =>
          cases h2 : buildSqlList ys i with
          | error e2 =>
            rw [h1, h2] at hcl
            simp only [buildSql, h1, h2]
            exact hcl
          | ok r2 =>
            rw [h1, h2] at hcl
            exact hcl.elim
        | ok r1 =>
          cases h2 : buildSqlList ys i with
          | error e2 =>
            rw [h1, h2] at hcl
            exact hcl.elim
          | ok r2 =>
            rw [h1, h2] at hcl
            obtain ⟨ht, hlen⟩ := hcl
            simp only [buildSql, h1, h2]
            exact ⟨by rw [ht], hlen⟩
      | builder b =>
        cases hb : serializeBuilder b i with
        | error e =>
          simp only [buildSql, hb]
          exact rfl
        | ok r =>
          simp only [buildSql, hb]
          exact ⟨rfl, rfl⟩
    · intro xs ys hsize hsl i
      cases hsl with
      | nil => exact ⟨rfl, rfl⟩
      | cons v w xs' ys' hvw hrest =>
        have hcons : sizeOf (v :: xs') = 1 + sizeOf v + sizeOf xs' := by simp
        have hszv : sizeOf v < N := by omega
        have hszxs : sizeOf xs' < N := by omega
        have hv := (ih (sizeOf v) hszv).1 v w le_rfl hvw i
        cases h1 : buildSql v i with
        | error e =>
          cases h2 : buildSql w i with
          | error e2 =>
            rw [h1, h2] at hv
            simp only [buildSqlList, h1, h2]
            exact hv
          | ok s2 =>
            rw [h1, h2] at hv
            exact hv.elim
        | ok s1 =>
          cases h2 : buildSql w i with
          | error e2 =>
            rw [h1, h2] at hv
            exact hv.elim
          | ok s2 =>
            rw [h1, h2] at hv
            obtain ⟨ht, hlen⟩ := hv
            have hrec := (ih (sizeOf xs') hszxs).2 xs' ys' le_rfl hrest (i + s1.2.length)
            simp only [buildSqlList, h1, h2, ← hlen]
            cases h3 : buildSqlList xs' (i + s1.2.length) with
            | error e3 =>
              cases h4 : buildSqlList ys' (i + s1.2.length) with
              | error e4 =>
                rw [h3, h4] at hrec
                simp only [h3, h4]
                exact hrec
              | ok r4 =>
                rw [h3, h4] at hrec
                exact hrec.elim
            | ok r3 =>
              cases h4 : buildSqlList ys' (i + s1.2.length) with
              | error e4 =>
                rw [h3, h4] at hrec
                exact hrec.elim
              | ok r4 =>
                rw [h3, h4] at hrec
                obtain ⟨ht2, hlen2⟩ := hrec
                simp only [h3, h4]
                exact ⟨by rw [ht, ht2], by simp [List.length_append, hlen, hlen2]⟩

/-- C2: interpolated scalar and list content never reaches the text — two
invocations of `sql` over the same template whose expression lists are
pointwise same-shaped (scalars in place of scalars, lists elementwise, the
very same builders) produce identical text and equally many bound values;
the interpolated runtime values appear only in `values`. -/
theorem injection_safety (texts : List String) (es1 es2 : List Value)
    (h : SameShapeList es1 es2) : queryCongr (sql texts es1) (sql texts es2) := by
  have hc := (congr_main (sizeOf es1)).2 es1 es2 le_rfl h 1
  rw [sql_eq, sql_eq]
  cases h1 : buildSqlList es1 1 with
  | error e =>
    cases h2 : buildSqlList es2 1 with
    | error e2 =>
      rw [h1, h2] at hc
      exact hc
    | ok r2 =>
      rw [h1, h2] at hc
      exact hc.elim
  | ok r1 =>
    cases h2 : buildSqlList es2 1 with
    | error e2 =>
      rw [h1, h2] at hc
      exact hc.elim
    | ok r2 =>
      rw [h1, h2] at hc
      obtain ⟨ht, hlen⟩ := hc
      exact ⟨by rw [ht], hlen⟩

/-- Witness for C2: a benign name and an injection-attempt string produce
the same query text, the attempt being bound as a parameter instead. -/
theorem injection_safety_witness :
    queryCongr
      (sql ["SELECT * FROM users WHERE name = ", ""] [.vStr "John"])
      (sql ["SELECT * FROM users WHERE name = ", ""]
           [.vStr "Robert); DROP TABLE users;--"]) :=
  injection_safety ["SELECT * FROM users WHERE name = ", ""] _ _
    (SameShapeList.cons _ _ _ _ (SameShape.scalar _ _ rfl rfl) SameShapeList.nil)

/-! ### Claim C4 -/

theorem serializeInsertRow_ok_lookup :
    ∀ (cols : List String) (record : Record) (i : Nat)
      (r : List String × List Value),
      serializeInsertRow record cols i = .ok r →
      ∀ c ∈ cols, lookupRecord record c ≠ none := by
  intro cols
  induction cols with
  | nil => intro record i r _ c hc; cases hc
  | cons c0 cols' ih =>
    intro record i r hok c hc
    cases hlk : lookupRecord record c0 with
    | none => simp only [serializeInsertRow, hlk] at hok; cases hok
    | some v =>
      cases hbv : buildSql v i with
      | error e => simp only [serializeInsertRow, hlk, hbv] at hok; cases hok
      | ok s =>
        cases hbr : serializeInsertRow record cols' (i + s.2.length) with
        | error e =>
          simp only [serializeInsertRow, hlk, hbv, hbr] at hok
          cases hok
        | ok r' =>
          rcases List.mem_cons.1 hc with rfl | hc'
          · rw [hlk]; simp
          · exact ih record _ r' hbr c hc'

theorem serializeInsertRows_ok_lookup :
    ∀ (records : List Record) (columns : List String) (i : Nat)
      (r : List String × List Value),
      serializeInsertRows columns records i = .ok r →
      ∀ rec ∈ records, ∀ c ∈ columns, lookupRecord rec c ≠ none := by
  intro records
  induction records with
  | nil => intro columns i r _ rec hrec; cases hrec
  | cons record rs ih =>
    intro columns i r hok rec hrec c hc
    cases hrow : serializeInsertRow record columns i with
    | error e => simp only [serializeInsertRows, hrow] at hok; cases hok
    | ok row =>
      cases hrest : serializeInsertRows columns rs (i + row.2.length) with
      | error e =>
        simp only [serializeInsertRows, hrow, hrest] at hok
        cases hok
      | ok r' =>
        rcases List.mem_cons.1 hrec with rfl | hrec'
        · exact serializeInsertRow_ok_lookup columns rec i row hrow c hc
        · exact ih columns _ r' hrest rec hrec' c hc

/-- C4: when any record omits a value (absent key or explicit `undefined`)
for a column of the first-seen key union of the undefined-filtered records,
`spreadInsert` fails with a `missingColumnValue` error naming a column, and
so does the whole `sql` invocation embedding the builder — the error is
raised at query-building time and no Query Object is produced. -/
theorem spreadInsert_missing_column (records : List Record) (texts : List String)
    (h : ∃ rec ∈ records, ∃ c ∈ extractKeys (records.map filterUndefined),
          lookupRecord rec c = none) :
    ∃ c, serializeBuilder (spreadInsert records) 1
          = .error (.missingColumnValue c) ∧
      sql texts [.vBuilder (spreadInsert records)]
          = .error (.missingColumnValue c) := by
  cases hres : serializeInsertRows (extractKeys (records.map filterUndefined))
      records 1 with
  | ok r =>
    obtain ⟨rec, hrec, c, hc, hlk⟩ := h
    exact absurd hlk (serializeInsertRows_ok_lookup records _ 1 r hres rec hrec c hc)
  | error e =>
    cases e with
    | missingColumnValue c =>
      have hser : serializeBuilder (spreadInsert records) 1
          = .error (.missingColumnValue c) := by
        have hunfold : serializeBuilder (spreadInsert records) 1
            = match serializeInsertRows (extractKeys (records.map filterUndefined))
                records 1 with
              | .error e => .error e
              | .ok r =>
                .ok ("(" ++ joinWith ", "
                      ((extractKeys (records.map filterUndefined)).map
                        escapeIdentifier) ++ ")" ++ " VALUES " ++ "("
                      ++ joinWith "), (" r.1 ++ ")", r.2) := rfl
        rw [hunfold, hres]
      refine ⟨c, hser, ?_⟩
      rw [sql_eq]
      have hb : buildSql (.vBuilder (spreadInsert records)) 1
          = .error (.missingColumnValue c) := hser
      simp only [buildSqlList, hb]

/-- Witness for C4 at the spec example `spreadInsert({a:1,b:2},{a:3})`: the
second record omits column `b`, so building fails with the error naming
`b`, both at the builder and through `sql`. -/
theorem spreadInsert_missing_column_witness :
    serializeBuilder (spreadInsert
        [[("a", some (.vInt 1)), ("b", some (.vInt 2))],
         [("a", some (.vInt 3))]]) 1
      = .error (.missingColumnValue "b") ∧
    sql ["INSERT INTO t ", ""] [.vBuilder (spreadInsert
        [[("a", some (.vInt 1)), ("b", some (.vInt 2))],
         [("a", some (.vInt 3))]])]
      = .error (.missingColumnValue "b") := by
  obtain ⟨c, h1, h2⟩ := spreadInsert_missing_column
    [[("a", some (.vInt 1)), ("b", some (.vInt 2))], [("a", some (.vInt 3))]]
    ["INSERT INTO t ", ""]
    ⟨[("a", some (.vInt 3))],
     List.mem_cons_of_mem _ (List.mem_cons_self _ _),
     "b", by decide, rfl⟩
  have h3 := h1.symm.trans
    (rfl : serializeBuilder (spreadInsert
        [[("a", some (.vInt 1)), ("b", some (.vInt 2))],
         [("a", some (.vInt 3))]]) 1
      = .error (.missingColumnValue "b"))
  have h4 := Except.error.inj h3
  injection h4 with h5
  subst h5
  exact ⟨h1, h2⟩

/-! ### Claim C7 -/

theorem joinWith_merge4 (L0 L1 L2 L3 t1 t2 t3 : String) :
    joinWith "" (mergeLists [L0, L1, L2, L3] [t1, t2, t3])
      = L0 ++ t1 ++ L1 ++ t2 ++ L2 ++ t3 ++ L3 := by
  rw [show mergeLists [L0, L1, L2, L3] [t1, t2, t3]
        = [L0, t1, L1, t2, L2, t3, L3] from rfl]
  rw [joinWith_empty_cons, joinWith_empty_cons, joinWith_empty_cons,
      joinWith_empty_cons, joinWith_empty_cons, joinWith_empty_cons]
  rw [show joinWith "" [L3] = L3 from rfl]
  simp [String.append_assoc]

/-- C7: a builder interpolated into an outer template is serialized at the
outer running start index instead of restarting at 1: after two preceding
scalar parameters a `spreadAnd` builder over one scalar column gets its
internal placeholder numbered 3, and its bound value follows the two
preceding parameters in `values`. -/
theorem nested_renumbering (L0 L1 L2 L3 : String) (v1 v2 w : Value) (c : String)
    (h1 : isScalar v1 = true) (h2 : isScalar v2 = true) (hw : isScalar w = true) :
    sql [L0, L1, L2, L3] [v1, v2, .vBuilder (spreadAnd [(c, some w)])]
      = .ok ⟨L0 ++ placeholder 1 ++ L1 ++ placeholder 2 ++ L2
              ++ ("(" ++ (escapeIdentifier c ++ " = " ++ placeholder 3) ++ ")") ++ L3,
            [v1, v2, w]⟩ := by
  have hb1 := buildSql_scalar v1 h1 1
  have hb2 := buildSql_scalar v2 h2 2
  have hbw := buildSql_scalar w hw 3
  have hset : serializeSetters [(c, w)] 3
      = .ok ([escapeIdentifier c ++ " = " ++ placeholder 3], [w]) := by
    simp only [serializeSetters, hbw]
    rfl
  have hb3 : buildSql (.vBuilder (spreadAnd [(c, some w)])) 3
      = .ok ("(" ++ (escapeIdentifier c ++ " = " ++ placeholder 3) ++ ")", [w]) := by
    have hunfold : buildSql (.vBuilder (spreadAnd [(c, some w)])) 3
        = match serializeSetters [(c, w)] 3 with
          | .error e => .error e
          | .ok r => .ok ("(" ++ joinWith " AND " r.1 ++ ")", r.2) := rfl
    rw [hunfold, hset]
    rfl
  have hlist : buildSqlList [v1, v2, .vBuilder (spreadAnd [(c, some w)])] 1
      = .ok ([placeholder 1, placeholder 2,
              "(" ++ (escapeIdentifier c ++ " = " ++ placeholder 3) ++ ")"],
             [v1, v2, w]) := by
    norm_num [buildSqlList, hb1, hb2, hb3]
  rw [sql_eq, hlist]
  show Except.ok (QueryConfig.mk (joinWith "" (mergeLists [L0, L1, L2, L3]
      [placeholder 1, placeholder 2,
       "(" ++ (escapeIdentifier c ++ " = " ++ placeholder 3) ++ ")"])) [v1, v2, w]) = _
  rw [joinWith_merge4]

/-- Witness for C7: interpolating `spreadAnd({c: 9})` after the parameters
`7` and `8` numbers its internal placeholder `$3`. -/
theorem nested_renumbering_witness :
    sql ["", " ", " ", ""] [.vInt 7, .vInt 8,
        .vBuilder (spreadAnd [("c", some (.vInt 9))])]
      = .ok ⟨"$1 $2 (\"c\" = $3)", [.vInt 7, .vInt 8, .vInt 9]⟩ :=
  nested_renumbering "" " " " " "" (.vInt 7) (.vInt 8) (.vInt 9) "c" rfl rfl rfl

end Squid
